import Mathlib

/-!
# Verification of the `maze` repository (maze.py, mazerunner.py)

Shallow embedding of the computational core of the repository:

* `maze.py`: `RelativeDirection`, `AbsoluteDirection` (with `absolute` /
  `relative` conversions), `Point`, `Maze` (randomized-Prim generation in
  `_create_maze`, `can_move`, `move`).
* `mazerunner.py`: `_RunnerImpl` (position / heading / history / lineage,
  `move`, `duplicate`, `age`), `MazeRunner.clone_runner` and the simulation
  loop `MazeRunner._run`.

Python's pseudo-random generator is modelled as an abstract state machine
`RngFns` threaded through generation; theorems assume only that it returns
members of the collections it samples from, so they hold for every seed.
Machine integers are `Int` (Python ints are unbounded); Python `%` on a
positive modulus is `Int.emod`.  The class attribute `Maze._cells` starts as
a fresh empty dict when the interpreter starts; construction is modelled from
that empty state.
-/

namespace MazeRepo

/-- Python `RelativeDirection` from maze.py (enum, `auto()` values irrelevant). -/
inductive RelativeDirection where
  | NONE | FORWARD | BACKWARD | LEFT | RIGHT
deriving DecidableEq, Repr

/-- Python `AbsoluteDirection` from maze.py; the `value`s 0..4 are clockwise. -/
inductive AbsoluteDirection where
  | NONE | UP | RIGHT | DOWN | LEFT
deriving DecidableEq, Repr

/-- The Python enum `value` of an `AbsoluteDirection`. -/
def AbsoluteDirection.value : AbsoluteDirection → Int
  | .NONE => 0
  | .UP => 1
  | .RIGHT => 2
  | .DOWN => 3
  | .LEFT => 4

/-- Python `AbsoluteDirection(v)` for `v` in 0..4 (other values raise in Python and
are unreachable at the single call site, where `v = _ % 4 + 1`). -/
def AbsoluteDirection.ofValue (v : Int) : AbsoluteDirection :=
  if v = 1 then .UP
  else if v = 2 then .RIGHT
  else if v = 3 then .DOWN
  else if v = 4 then .LEFT
  else .NONE

/-- Python `AbsoluteDirection.absolute` (maze.py lines 32-51). -/
def AbsoluteDirection.absolute (self : AbsoluteDirection)
    (other : RelativeDirection) : AbsoluteDirection :=
  if self = .NONE ∨ other = .NONE then .NONE
  else
    let offset : Int :=
      match other with
      | .FORWARD => 0
      | .LEFT => -1
      | .BACKWARD => 2
      | .RIGHT => 1
      | .NONE => 0  -- unreachable: the NONE case returned above
    AbsoluteDirection.ofValue ((self.value - 1 + offset).emod 4 + 1)

/-- Python `AbsoluteDirection.relative` (maze.py lines 53-67).  The source guard is
`self == AbsoluteDirection.NONE or other == RelativeDirection.NONE`; since
`other` is an `AbsoluteDirection`, the second comparison is between members
of two different enums and is always `False` in Python, so only the `self`
test is effective.  The trailing `raise` is unreachable because
`(...).emod 4` lies in 0..3. -/
def AbsoluteDirection.relative (self other : AbsoluteDirection) :
    RelativeDirection :=
  if self = AbsoluteDirection.NONE then RelativeDirection.NONE
  else
    let delta := (self.value - other.value).emod 4
    if delta = 0 then .FORWARD
    else if delta = 1 then .LEFT
    else if delta = 2 then .BACKWARD
    else .RIGHT

/-- The `Direction` union from maze.py line 72. -/
inductive Direction where
  | abs (a : AbsoluteDirection)
  | rel (r : RelativeDirection)
deriving DecidableEq, Repr

/-- Python `Point` from maze.py: an immutable 2d position. -/
structure Point where
  x : Int
  y : Int
deriving DecidableEq, Repr

instance : Inhabited Point := ⟨⟨0, 0⟩⟩

def Point.above (p : Point) : Point := ⟨p.x, p.y - 1⟩
def Point.below (p : Point) : Point := ⟨p.x, p.y + 1⟩
def Point.left (p : Point) : Point := ⟨p.x - 1, p.y⟩
def Point.right (p : Point) : Point := ⟨p.x + 1, p.y⟩

/-- A linear (lexicographic) order on points, used only by the concrete
sample generator below; Python's `dataclass(order=True)` orders the same
way. -/
instance : LinearOrder Point :=
  LinearOrder.lift' (fun p => toLex (p.x, p.y)) (fun p q h => by
    cases p; cases q
    simpa [Prod.ext_iff] using h)

/-- The per-cell connection sets: `Maze._cells`, where a missing key denotes
a cell with no connections (`_Cells.__missing__` creates exactly that). -/
def Cells : Type := Point → Finset Point

instance : Inhabited Cells := ⟨fun _ => ∅⟩

/-- Python `Maze._Cell.connect` performed on both endpoints
(maze.py lines 254-255). -/
def connectCells (cells : Cells) (a b : Point) : Cells :=
  fun p =>
    if p = a then insert b (cells a)
    else if p = b then insert a (cells b)
    else cells p

/-- Python `get_adjacent_points` from `Maze._create_maze` (maze.py lines 227-236),
in generator order. -/
def adjacentPoints (w h : Int) (pt : Point) : List Point :=
  (if 0 < pt.x then [Point.mk (pt.x - 1) pt.y] else []) ++
  (if pt.x + 1 < w then [Point.mk (pt.x + 1) pt.y] else []) ++
  (if 0 < pt.y then [Point.mk pt.x (pt.y - 1)] else []) ++
  (if pt.y + 1 < h then [Point.mk pt.x (pt.y + 1)] else [])

/-- The abstract pseudo-random generator: a state machine supplying exactly
the draws `Maze` makes (`randrange`, `sample(set, 1)[0]`, `choice(list)`).
Python iterates sets in hash order before sampling; that ordering is folded
into `sampleF`. -/
structure RngFns (σ : Type) where
  randrangeF : σ → Int → Int → Int × σ
  sampleF : σ → Finset Point → Point × σ
  choiceF : σ → List Point → Point × σ

/-- The generation loop state: the cell map, the frontier `adj_cells`, and
the generator state. -/
structure GenState (σ : Type) where
  cells : Cells
  frontier : Finset Point
  rs : σ

/-- One iteration of the `while` loop of `Maze._create_maze`
(maze.py lines 244-259). -/
def genStep {σ : Type} (w h : Int) (start : Point) (f : RngFns σ)
    (s : GenState σ) : GenState σ :=
  let cell := (f.sampleF s.rs s.frontier).1
  let s1 := (f.sampleF s.rs s.frontier).2
  let frontier1 := s.frontier.erase cell
  let adj := adjacentPoints w h cell
  let connections := adj.filter fun p =>
    decide (p = start ∨ (s.cells p).Nonempty)
  let connectTo := (f.choiceF s1 connections).1
  let s2 := (f.choiceF s1 connections).2
  let cells1 := connectCells s.cells cell connectTo
  let nonConnections := (adj.filter fun p => decide (cells1 p = ∅)).toFinset
  ⟨cells1, frontier1 ∪ nonConnections, s2⟩

/-- The `while len(adj_cells) > 0` loop, with enough fuel to run to
completion (the loop body always moves one unvisited cell into the maze, so
the iteration count is bounded by the number of cells; `mkMaze` passes a
fuel exceeding that bound). -/
def createMazeLoop {σ : Type} (w h : Int) (start : Point) (f : RngFns σ) :
    Nat → GenState σ → GenState σ
  | 0, s => s
  | fuel + 1, s =>
    if s.frontier.Nonempty then
      createMazeLoop w h start f fuel (genStep w h start f s)
    else s

/-- Python `Maze`: dimensions, start/end points and the cell map.  The Python
attribute `end` is called `endP` (`end` is reserved in Lean). -/
structure Maze where
  width : Int
  height : Int
  start : Point
  endP : Point
  cells : Cells

/-- Python `Maze.__init__` (maze.py lines 104-113) together with `_create_maze`.
`random.randrange(0, height)` raises `ValueError` when `height <= 0`
(empty range); that failure is the `none` result.  No other input is
rejected. -/
def mkMaze {σ : Type} (w h : Int) (f : RngFns σ) (s0 : σ) : Option Maze :=
  if h ≤ 0 then none
  else
    let sy := (f.randrangeF s0 0 h).1
    let s1 := (f.randrangeF s0 0 h).2
    let ey := (f.randrangeF s1 0 h).1
    let s2 := (f.randrangeF s1 0 h).2
    let start := Point.mk 0 sy
    let frontier0 := (adjacentPoints w h start).toFinset
    let final := createMazeLoop w h start f
      ((w.toNat + 1) * (h.toNat + 1))
      ⟨fun _ => ∅, frontier0, s2⟩
    some { width := w, height := h, start := start,
           endP := Point.mk (w - 1) ey, cells := final.cells }

/-- Python `Maze.move` (maze.py lines 135-148): the neighbor point, ignoring
walls. -/
def Maze.move (position : Point) (direction : AbsoluteDirection) : Point :=
  match direction with
  | .NONE => position
  | .UP => position.above
  | .DOWN => position.below
  | .LEFT => position.left
  | .RIGHT => position.right

/-- Python `Maze.can_move` (maze.py lines 119-121): is the neighbor in the
position's connection set?  (`_cells[position]` auto-creates an empty cell,
so this never faults; the empty default is the total function's default.) -/
def Maze.can_move (m : Maze) (position : Point)
    (direction : AbsoluteDirection) : Bool :=
  decide (Maze.move position direction ∈ m.cells position)

/-- The grid of all `width × height` cell coordinates. -/
def grid (w h : Int) : Finset Point :=
  ((Finset.range w.toNat) ×ˢ (Finset.range h.toNat)).image
    fun ab => Point.mk ab.1 ab.2

/-!
## mazerunner.py
-/

/-- The mutable state of a `_RunnerImpl` (mazerunner.py lines 240-302).
`_history` excludes the current position; the `history()` accessor appends
it.  The curses screen handle is irrelevant to the claims and omitted. -/
structure RunnerState where
  position : Point
  _heading : AbsoluteDirection
  _history : List Point
  _born_at_index : Option Nat
  _name : String
deriving DecidableEq, Repr

/-- Python `_RunnerImpl.__init__`: the root runner, created at the maze start,
facing `RIGHT`, with the class-default name. -/
def mkRootRunner (position : Point) : RunnerState :=
  { position := position, _heading := .RIGHT, _history := [],
    _born_at_index := none, _name := "Runner0000" }

/-- Python `_RunnerImpl.heading`. -/
def RunnerState.heading (r : RunnerState) : AbsoluteDirection := r._heading

/-- Python `_RunnerImpl.history()`: past points plus the current position
(mazerunner.py lines 257-260). -/
def RunnerState.history (r : RunnerState) : List Point :=
  r._history ++ [r.position]

/-- Python `_RunnerImpl.age` (mazerunner.py lines 283-286):
`len(_history) - (_born_at_index if it is not None else -1)`. -/
def RunnerState.age (r : RunnerState) : Int :=
  (r._history.length : Int) -
    (match r._born_at_index with
     | some i => (i : Int)
     | none => -1)

/-- Python `_RunnerImpl._to_absolue` (sic): resolve a generic direction against the
current heading. -/
def RunnerState.to_absolue (r : RunnerState) (d : Direction) :
    AbsoluteDirection :=
  match d with
  | .abs a => a
  | .rel rel => r.heading.absolute rel

/-- Python `_RunnerImpl.duplicate` (mazerunner.py lines 291-302); the caller
resolves the global `_clone_num` default naming, which no claim touches, so
the final name is a parameter. -/
def RunnerState.duplicate (r : RunnerState) (d : Direction) (name : String) :
    RunnerState :=
  { position := r.position, _heading := r.to_absolue d,
    _history := r._history, _born_at_index := some r._history.length,
    _name := name }

/-- Python `_RunnerImpl.can_move`. -/
def RunnerState.can_move (m : Maze) (r : RunnerState) (d : Direction) :
    Bool :=
  m.can_move r.position (r.to_absolue d)

/-- Python `_RunnerImpl.move` (mazerunner.py lines 342-349): reorient
unconditionally, then move only if the wall is open.  Returns the `bool`
result together with the updated runner. -/
def RunnerState.move (m : Maze) (r : RunnerState) (d : Direction) :
    Bool × RunnerState :=
  let a := r.to_absolue d
  let r1 := { r with _heading := a }
  if a ≠ AbsoluteDirection.NONE ∧ m.can_move r.position a then
    (true, { r1 with _history := r1._history ++ [r1.position],
                     position := Maze.move r1.position a })
  else (false, r1)

/-- Python `MazeRunner.clone_runner` (mazerunner.py lines 117-125): raises (the
`none` result) when `len(self._runners) > height * width`, otherwise appends
the duplicate to the active list. -/
def clone_runner (m : Maze) (runners : List RunnerState) (r : RunnerState)
    (d : Direction) (name : String) : Option (List RunnerState) :=
  if m.height * m.width < (runners.length : Int) then none
  else some (runners ++ [r.duplicate d name])

/-- Outcome of the simulation loop `MazeRunner._run`: Python shows
`'You won in {loop_count} moves'` or
`'You crashed into a wall after {loop_count} moves'`. -/
inductive SimResult where
  | won (loopCount : Nat)
  | crashed (loopCount : Nat)
  | outOfFuel
deriving DecidableEq, Repr

/-- The inner `while i < len(self._runners)` loop of `MazeRunner._run`
(mazerunner.py lines 213-232), for a decision function that returns a
direction (no cloning).  On a failed move the runner goes to the crashed
list and the index stays put; on a successful move the index advances and
the win condition is checked.  Returns (winner?, active, crashed).  `fuel`
is structural recursion fuel; callers pass `runners.length`, which bounds
the iteration count since without clones the list never grows. -/
def tickLoop (m : Maze) (alg : RunnerState → Direction) :
    Nat → List RunnerState → Nat → List RunnerState →
    Option RunnerState × List RunnerState × List RunnerState
  | 0, runners, _, crashed => (none, runners, crashed)
  | fuel + 1, runners, i, crashed =>
    if hlt : i < runners.length then
      let r := runners.get ⟨i, hlt⟩
      let res := r.move m (alg r)
      if res.1 then
        let runners1 := runners.set i res.2
        if res.2.position = m.endP then (some res.2, runners1, crashed)
        else tickLoop m alg fuel runners1 (i + 1) crashed
      else tickLoop m alg fuel (runners.eraseIdx i) i (crashed ++ [res.2])
    else (none, runners, crashed)

/-- The outer `while True` loop of `MazeRunner._run` (mazerunner.py lines
167-237), stripped of drawing and timing: if a winner was found the run
reports a win, if no runner survives it reports the crash, otherwise the
loop counter advances and every active runner takes a turn. -/
def simLoop (m : Maze) (alg : RunnerState → Direction) :
    Nat → List RunnerState → Nat → SimResult
  | 0, _, _ => .outOfFuel
  | fuel + 1, runners, loopCount =>
    if runners.isEmpty then .crashed loopCount
    else
      let res := tickLoop m alg runners.length runners 0 []
      match res.1 with
      | some _ => .won (loopCount + 1)
      | none => simLoop m alg fuel res.2.1 (loopCount + 1)

/-- Python `MazeRunner._run`: start with the single root runner at the maze start
and loop. -/
def runSim (m : Maze) (alg : RunnerState → Direction) (fuel : Nat) :
    SimResult :=
  simLoop m alg fuel [mkRootRunner m.start] 0

/-!
## A concrete generator instance

Used by witnesses: `randrange(0, b)` returns `0`, sampling picks the least
point.  It satisfies the membership contracts assumed of `random.Random`.
-/

/-- A concrete deterministic generator (stand-in for one `random.Random`
seed). -/
def detRng : RngFns Nat where
  randrangeF := fun s _a _b => (0, s + 1)
  sampleF := fun s fs =>
    (if hne : fs.Nonempty then fs.min' hne else default, s + 1)
  choiceF := fun s l => (l.headI, s + 1)

/-- The 1×1 maze generated by `detRng` (start = end = (0,0), no
connections). -/
def maze11 : Maze := (mkMaze 1 1 detRng 0).get (by decide)

/-- A 2×2 maze generated by `detRng`, used as a witness input. -/
def maze22 : Maze := (mkMaze 2 2 detRng 0).get (by decide)

/-!
## Specification-side notions

These express the spec's properties (spanning tree, reachability,
determinism contracts) over the embedded state.
-/

/-- Contract of `random.randrange(0, b)`: a value in `[0, b)` (only ever
called with a positive `b` after the validity test). -/
def RandrangeOk {σ : Type} (f : RngFns σ) : Prop :=
  ∀ (st : σ) (b : Int), 0 < b →
    0 ≤ (f.randrangeF st 0 b).1 ∧ (f.randrangeF st 0 b).1 < b

/-- Contract of `random.sample(s, 1)[0]`: a member of the sampled set. -/
def SampleOk {σ : Type} (f : RngFns σ) : Prop :=
  ∀ (st : σ) (fs : Finset Point), fs.Nonempty → (f.sampleF st fs).1 ∈ fs

/-- Contract of `random.choice(l)`: a member of the (nonempty) list. -/
def ChoiceOk {σ : Type} (f : RngFns σ) : Prop :=
  ∀ (st : σ) (l : List Point), l ≠ [] → (f.choiceF st l).1 ∈ l

/-- Grid adjacency of two points (they differ by one step). -/
def isAdjacent (p q : Point) : Prop :=
  q = p.above ∨ q = p.below ∨ q = p.left ∨ q = p.right

instance (p q : Point) : Decidable (isAdjacent p q) := by
  unfold isAdjacent; infer_instance

/-- Reachability along the connection sets (the spec's "reachable from the
start cell"). -/
def Reach (cells : Cells) (a b : Point) : Prop :=
  Relation.ReflTransGen (fun p q => q ∈ cells p) a b

/-- The connection graph over the grid cells as a `SimpleGraph` (an
undirected edge wherever either connection set records the pair; after
generation the sets are symmetric, so this is exactly the recorded
topology). -/
def graphOf (w h : Int) (cells : Cells) :
    SimpleGraph {p : Point // p ∈ grid w h} where
  Adj a b := a ≠ b ∧ ((b : Point) ∈ cells a ∨ (a : Point) ∈ cells b)
  symm := by
    intro a b hab
    exact ⟨hab.1.symm, hab.2.symm⟩
  loopless := by
    intro a ha
    exact ha.1 rfl

instance (w h : Int) (cells : Cells) : DecidableRel (graphOf w h cells).Adj :=
  fun a b =>
    inferInstanceAs (Decidable (a ≠ b ∧ ((b : Point) ∈ cells a ∨ (a : Point) ∈ cells b)))

/-- The connection graph of a generated maze. -/
@[reducible]
def mazeGraph (m : Maze) : SimpleGraph {p : Point // p ∈ grid m.width m.height} :=
  graphOf m.width m.height m.cells

/-- The grid cells counted as "part of the maze" by the generator: the
start, plus every cell with at least one connection. -/
def visitedSet (w h : Int) (start : Point) (cells : Cells) : Finset Point :=
  (grid w h).filter fun p => p = start ∨ (cells p).Nonempty

/-- The grid cells not yet part of the maze; its cardinality is the loop
measure. -/
def unvisitedSet (w h : Int) (start : Point) (cells : Cells) : Finset Point :=
  (grid w h).filter fun p => ¬(p = start ∨ (cells p).Nonempty)

/-- The generation-loop invariant of `Maze._create_maze`. -/
structure GenInv (w h : Int) (start : Point) (cells : Cells)
    (frontier : Finset Point) : Prop where
  startMem : start ∈ grid w h
  frontierSub : frontier ⊆ grid w h
  frontierUnvisited : ∀ p ∈ frontier, cells p = ∅
  startNotFrontier : start ∉ frontier
  symm : ∀ p q : Point, q ∈ cells p → p ∈ cells q
  edgesAdj : ∀ p q : Point, q ∈ cells p →
    p ∈ grid w h ∧ q ∈ grid w h ∧ isAdjacent p q
  reach : ∀ p ∈ grid w h, (p = start ∨ (cells p).Nonempty) →
    Reach cells start p
  allEmptyOr : (∀ p, cells p = ∅) ∨ (cells start).Nonempty
  frontierAdj : ∀ p ∈ frontier, ∃ q ∈ adjacentPoints w h p,
    q = start ∨ (cells q).Nonempty
  frontierComplete : ∀ p ∈ grid w h, cells p = ∅ → p ≠ start →
    ∀ q ∈ adjacentPoints w h p, (q = start ∨ (cells q).Nonempty) →
    p ∈ frontier
  acyclic : (graphOf w h cells).IsAcyclic

/-!
## Helper lemmas
-/

theorem headI_mem {α : Type} [Inhabited α] (l : List α) (h : l ≠ []) :
    l.headI ∈ l := by
  cases l with
  | nil => exact absurd rfl h
  | cons a t => exact List.mem_cons_self a t

theorem detRng_randrangeOk : RandrangeOk detRng :=
  fun _ _ hb => ⟨le_rfl, hb⟩

theorem detRng_sampleOk : SampleOk detRng := by
  intro st fs hne
  simp only [detRng, dif_pos hne]
  exact fs.min'_mem hne

theorem detRng_choiceOk : ChoiceOk detRng := by
  intro st l hl
  simpa [detRng] using headI_mem l hl

theorem mem_grid {w h : Int} {p : Point} :
    p ∈ grid w h ↔ 0 ≤ p.x ∧ p.x < w ∧ 0 ≤ p.y ∧ p.y < h := by
  cases p with
  | mk px py =>
    simp only [grid, Finset.mem_image, Finset.mem_product, Finset.mem_range,
      Prod.exists]
    constructor
    · rintro ⟨a, b, ⟨ha, hb⟩, heq⟩
      cases heq
      refine ⟨by omega, by omega, by omega, by omega⟩
    · rintro ⟨hx0, hxw, hy0, hyh⟩
      exact ⟨px.toNat, py.toNat, ⟨by omega, by omega⟩,
        by rw [Int.toNat_of_nonneg hx0, Int.toNat_of_nonneg hy0]⟩

theorem grid_card (w h : Int) : (grid w h).card = w.toNat * h.toNat := by
  rw [grid, Finset.card_image_of_injective, Finset.card_product,
    Finset.card_range, Finset.card_range]
  intro a b hab
  simp only [Point.mk.injEq, Nat.cast_inj] at hab
  exact Prod.ext hab.1 hab.2

theorem isAdjacent_symm {p q : Point} (h : isAdjacent p q) : isAdjacent q p := by
  cases p with
  | mk px py =>
    cases q with
    | mk qx qy =>
      simp only [isAdjacent, Point.above, Point.below, Point.left, Point.right,
        Point.mk.injEq] at h ⊢
      omega

theorem isAdjacent_ne {p q : Point} (h : isAdjacent p q) : p ≠ q := by
  cases p with
  | mk px py =>
    cases q with
    | mk qx qy =>
      simp only [isAdjacent, Point.above, Point.below, Point.left, Point.right,
        Point.mk.injEq, ne_eq] at h ⊢
      omega

theorem not_isAdjacent_self (p : Point) : ¬ isAdjacent p p :=
  fun h => isAdjacent_ne h rfl

theorem mem_adjacentPoints {w h : Int} {p q : Point} (hp : p ∈ grid w h) :
    q ∈ adjacentPoints w h p ↔ (isAdjacent p q ∧ q ∈ grid w h) := by
  cases p with
  | mk px py =>
    cases q with
    | mk qx qy =>
      have hp' : 0 ≤ px ∧ px < w ∧ 0 ≤ py ∧ py < h := by
        simpa [mem_grid] using hp
      simp only [adjacentPoints, List.mem_append, List.mem_ite_nil_right,
        List.mem_singleton, isAdjacent, Point.above, Point.below, Point.left,
        Point.right, Point.mk.injEq, mem_grid]
      omega

theorem adjacentPoints_comm {w h : Int} {p q : Point} (hp : p ∈ grid w h)
    (hq : q ∈ adjacentPoints w h p) : p ∈ adjacentPoints w h q := by
  rcases (mem_adjacentPoints hp).mp hq with ⟨hadj, hqg⟩
  exact (mem_adjacentPoints hqg).mpr ⟨isAdjacent_symm hadj, hp⟩

theorem connectCells_mem (cells : Cells) (a b p q : Point) :
    q ∈ connectCells cells a b p ↔
      (q ∈ cells p ∨ (p = a ∧ q = b) ∨ (p = b ∧ q = a)) := by
  unfold connectCells
  split
  next hpa =>
    subst hpa
    by_cases hpb : p = b
    · subst hpb
      simp [Finset.mem_insert]
      tauto
    · simp [Finset.mem_insert]
      tauto
  next hpa =>
    split
    next hpb =>
      subst hpb
      simp [Finset.mem_insert]
      tauto
    next hpb =>
      simp [hpa, hpb]

theorem subset_connectCells (cells : Cells) (a b p : Point) :
    cells p ⊆ connectCells cells a b p := by
  intro q hq
  rw [connectCells_mem]
  exact Or.inl hq

theorem reach_mono {cells cells' : Cells}
    (hsub : ∀ p, cells p ⊆ cells' p) {a b : Point} (h : Reach cells a b) :
    Reach cells' a b :=
  Relation.ReflTransGen.mono (fun p q hpq => hsub p hpq) h

/-- Every walk that ends at `a` without starting there uses an edge into
`a`. -/
theorem exists_edge_into {V : Type} {G : SimpleGraph V} {x a : V}
    (q : G.Walk x a) : x ≠ a → ∃ y, s(y, a) ∈ q.edges := by
  induction q with
  | nil => exact fun hxa => absurd rfl hxa
  | @cons u v w hadj q' ih =>
    intro _
    rcases Classical.em (v = w) with hz | hz
    · subst hz
      exact ⟨u, by rw [SimpleGraph.Walk.edges_cons]; exact List.mem_cons_self _ _⟩
    · obtain ⟨y, hy⟩ := ih hz
      exact ⟨y, by
        rw [SimpleGraph.Walk.edges_cons]; exact List.mem_cons_of_mem _ hy⟩

/-- Adding a single edge at a vertex that had no edges preserves
acyclicity: the key step of the generation-loop invariant. -/
theorem isAcyclic_extend {V : Type} [DecidableEq V] {G G' : SimpleGraph V}
    {a b : V}
    (hab : a ≠ b) (hG : G.IsAcyclic) (hiso : ∀ x, ¬ G.Adj a x)
    (hAdj : ∀ x y, G'.Adj x y ↔
      G.Adj x y ∨ (x = a ∧ y = b) ∨ (x = b ∧ y = a)) :
    G'.IsAcyclic := by
  intro v c hc
  rcases Classical.em (s(a, b) ∈ c.edges) with hmem | hmem
  · have ha : a ∈ c.support :=
      SimpleGraph.Walk.fst_mem_support_of_mem_edges c hmem
    have hc2 : (c.rotate ha).IsCycle := hc.rotate ha
    generalize c.rotate ha = c2 at hc2
    cases c2 with
    | nil => exact SimpleGraph.Walk.IsCycle.not_of_nil hc2
    | cons hadj q =>
      rename_i w1
      have hw1 : b = w1 := by
        rcases (hAdj a w1).mp hadj with hga | ⟨_, hb'⟩ | ⟨hab', _⟩
        · exact absurd hga (hiso w1)
        · exact hb'.symm
        · exact absurd hab' hab
      subst hw1
      obtain ⟨y, hy⟩ := exists_edge_into q (Ne.symm hab)
      have hyb : y = b := by
        have hadj2 : G'.Adj y a := by
          have := SimpleGraph.Walk.edges_subset_edgeSet q hy
          rwa [SimpleGraph.mem_edgeSet] at this
        rcases (hAdj y a).mp hadj2 with hga | ⟨_, hab'⟩ | ⟨hyb, _⟩
        · exact absurd hga.symm (hiso y)
        · exact absurd hab' hab
        · exact hyb
      subst hyb
      have hnodup := hc2.toIsCircuit.toIsTrail.edges_nodup
      rw [SimpleGraph.Walk.edges_cons, List.nodup_cons] at hnodup
      exact hnodup.1 (by rwa [Sym2.eq_swap] at hy)
  · have hsub : ∀ e ∈ c.edges, e ∈ G.edgeSet := by
      intro e
      refine Sym2.ind (fun x y he => ?_) e
      have he' := SimpleGraph.Walk.edges_subset_edgeSet c he
      rw [SimpleGraph.mem_edgeSet] at he'
      rw [SimpleGraph.mem_edgeSet]
      rcases (hAdj x y).mp he' with hga | ⟨hx, hy⟩ | ⟨hx, hy⟩
      · exact hga
      · subst hx; subst hy; exact absurd he hmem
      · subst hx; subst hy
        rw [Sym2.eq_swap] at he
        exact absurd he hmem
    exact hG (c.transfer G hsub) (hc.transfer hsub)

theorem connectCells_nonempty_iff (cells : Cells) (a b p : Point) :
    (connectCells cells a b p).Nonempty ↔
      ((cells p).Nonempty ∨ p = a ∨ p = b) := by
  unfold connectCells
  split
  next hpa =>
    subst hpa
    simp [Finset.insert_nonempty]
  next hpa =>
    split
    next hpb =>
      subst hpb
      simp [Finset.insert_nonempty]
    next hpb =>
      simp [hpa, hpb]

theorem connectCells_empty_iff (cells : Cells) (a b p : Point) :
    connectCells cells a b p = ∅ ↔
      (cells p = ∅ ∧ p ≠ a ∧ p ≠ b) := by
  rw [← Finset.not_nonempty_iff_eq_empty, connectCells_nonempty_iff,
    ← Finset.not_nonempty_iff_eq_empty]
  tauto

/-- The generation-loop invariant is preserved by one connection step, and
the step moves exactly the popped frontier cell out of the unvisited set. -/
theorem step_preserves {w h : Int} {start : Point} {cells : Cells}
    {frontier : Finset Point} (inv : GenInv w h start cells frontier)
    {cell : Point} (hcellF : cell ∈ frontier)
    {ct : Point} (hctAdj : ct ∈ adjacentPoints w h cell)
    (hctVis : ct = start ∨ (cells ct).Nonempty) :
    GenInv w h start (connectCells cells cell ct)
      (frontier.erase cell ∪
        ((adjacentPoints w h cell).filter fun p =>
          decide (connectCells cells cell ct p = ∅)).toFinset) ∧
    unvisitedSet w h start (connectCells cells cell ct)
      = (unvisitedSet w h start cells).erase cell ∧
    cell ∈ unvisitedSet w h start cells := by
  have hcellG : cell ∈ grid w h := inv.frontierSub hcellF
  have hcellE : cells cell = ∅ := inv.frontierUnvisited cell hcellF
  have hcellNS : cell ≠ start := fun e => inv.startNotFrontier (e ▸ hcellF)
  have hctA : isAdjacent cell ct := ((mem_adjacentPoints hcellG).mp hctAdj).1
  have hctG : ct ∈ grid w h := ((mem_adjacentPoints hcellG).mp hctAdj).2
  have hnect : cell ≠ ct := isAdjacent_ne hctA
  have hctNF : ct ∉ frontier := by
    intro hctF
    have hE : cells ct = ∅ := inv.frontierUnvisited ct hctF
    rcases hctVis with hcs | hNE
    · exact inv.startNotFrontier (hcs ▸ hctF)
    · rw [hE] at hNE
      exact absurd hNE Finset.not_nonempty_empty
  have hmem := connectCells_mem cells cell ct
  have hsub : ∀ p, cells p ⊆ connectCells cells cell ct p :=
    subset_connectCells cells cell ct
  have hne1 := connectCells_nonempty_iff cells cell ct
  have hE1 := connectCells_empty_iff cells cell ct
  have hctNE1 : (connectCells cells cell ct ct).Nonempty :=
    (hne1 ct).mpr (Or.inr (Or.inr rfl))
  have hcellNE1 : (connectCells cells cell ct cell).Nonempty :=
    (hne1 cell).mpr (Or.inr (Or.inl rfl))
  have hstartNE1 : (connectCells cells cell ct start).Nonempty := by
    rcases hctVis with hcs | hNE
    · exact hcs ▸ hctNE1
    · rcases inv.allEmptyOr with hall | hsNE
      · rw [hall ct] at hNE
        exact absurd hNE Finset.not_nonempty_empty
      · exact hsNE.mono (hsub start)
  have hreachct : Reach (connectCells cells cell ct) start ct := by
    rcases hctVis with hcs | hNE
    · exact hcs ▸ Relation.ReflTransGen.refl
    · exact reach_mono hsub (inv.reach ct hctG (Or.inr hNE))
  refine ⟨⟨inv.startMem, ?_, ?_, ?_, ?_, ?_, ?_, ?_, ?_, ?_, ?_⟩, ?_, ?_⟩
  · -- frontierSub
    intro p hp
    rcases Finset.mem_union.mp hp with hp | hp
    · exact inv.frontierSub (Finset.mem_of_mem_erase hp)
    · rw [List.mem_toFinset, List.mem_filter] at hp
      exact ((mem_adjacentPoints hcellG).mp hp.1).2
  · -- frontierUnvisited
    intro p hp
    rcases Finset.mem_union.mp hp with hp | hp
    · rcases Finset.mem_erase.mp hp with ⟨hpne, hpf⟩
      have hpct : p ≠ ct := fun e => hctNF (e ▸ hpf)
      exact (hE1 p).mpr ⟨inv.frontierUnvisited p hpf, hpne, hpct⟩
    · rw [List.mem_toFinset, List.mem_filter] at hp
      exact of_decide_eq_true hp.2
  · -- startNotFrontier
    intro hp
    rcases Finset.mem_union.mp hp with hp | hp
    · exact inv.startNotFrontier (Finset.mem_of_mem_erase hp)
    · rw [List.mem_toFinset, List.mem_filter] at hp
      have := of_decide_eq_true hp.2
      rw [this] at hstartNE1
      exact absurd hstartNE1 Finset.not_nonempty_empty
  · -- symm
    intro p q hq
    rw [hmem] at hq
    rw [hmem]
    rcases hq with hq | ⟨hp, hq⟩ | ⟨hp, hq⟩
    · exact Or.inl (inv.symm p q hq)
    · exact Or.inr (Or.inr ⟨hq, hp⟩)
    · exact Or.inr (Or.inl ⟨hq, hp⟩)
  · -- edgesAdj
    intro p q hq
    rw [hmem] at hq
    rcases hq with hq | ⟨hp, hq⟩ | ⟨hp, hq⟩
    · exact inv.edgesAdj p q hq
    · subst hp; subst hq
      exact ⟨hcellG, hctG, hctA⟩
    · subst hp; subst hq
      exact ⟨hctG, hcellG, isAdjacent_symm hctA⟩
  · -- reach
    intro p hpG hvis
    rcases hvis with hps | hpNE
    · exact hps ▸ Relation.ReflTransGen.refl
    · rcases (hne1 p).mp hpNE with hNE | hpc | hpct
      · exact reach_mono hsub (inv.reach p hpG (Or.inr hNE))
      · subst hpc
        exact hreachct.tail ((hmem ct p).mpr (Or.inr (Or.inr ⟨rfl, rfl⟩)))
      · exact hpct ▸ hreachct
  · -- allEmptyOr
    exact Or.inr hstartNE1
  · -- frontierAdj
    intro p hp
    rcases Finset.mem_union.mp hp with hp | hp
    · obtain ⟨q, hqadj, hqvis⟩ :=
        inv.frontierAdj p (Finset.mem_of_mem_erase hp)
      refine ⟨q, hqadj, ?_⟩
      rcases hqvis with hqs | hqNE
      · exact Or.inl hqs
      · exact Or.inr (hqNE.mono (hsub q))
    · rw [List.mem_toFinset, List.mem_filter] at hp
      have hpG : p ∈ grid w h := ((mem_adjacentPoints hcellG).mp hp.1).2
      exact ⟨cell, adjacentPoints_comm hcellG hp.1, Or.inr hcellNE1⟩
  · -- frontierComplete
    intro p hpG hpE1 hpNS q hqAdj hqVis1
    obtain ⟨hpE, hpNcell, hpNct⟩ := (hE1 p).mp hpE1
    have herase : p ∈ frontier →
        p ∈ frontier.erase cell ∪
          ((adjacentPoints w h cell).filter fun r =>
            decide (connectCells cells cell ct r = ∅)).toFinset :=
      fun hf => Finset.mem_union_left _ (Finset.mem_erase.mpr ⟨hpNcell, hf⟩)
    rcases hqVis1 with hqS | hqNE1
    · exact herase (inv.frontierComplete p hpG hpE hpNS q hqAdj (Or.inl hqS))
    · rcases (hne1 q).mp hqNE1 with hqNE | hqCell | hqCt
      · exact herase
          (inv.frontierComplete p hpG hpE hpNS q hqAdj (Or.inr hqNE))
      · subst hqCell
        refine Finset.mem_union_right _ ?_
        rw [List.mem_toFinset, List.mem_filter]
        exact ⟨adjacentPoints_comm hpG hqAdj, decide_eq_true hpE1⟩
      · exact herase (inv.frontierComplete p hpG hpE hpNS q hqAdj
          (by rw [hqCt]; exact hctVis))
  · -- acyclic
    apply @isAcyclic_extend {p : Point // p ∈ grid w h} _
      (graphOf w h cells) _ ⟨cell, hcellG⟩ ⟨ct, hctG⟩
    · exact fun e => hnect (congrArg Subtype.val e)
    · exact inv.acyclic
    · intro x hx
      rcases hx.2 with hx2 | hx2
      · rw [hcellE] at hx2
        exact absurd hx2 (Finset.not_mem_empty _)
      · have := inv.symm _ _ hx2
        rw [hcellE] at this
        exact absurd this (Finset.not_mem_empty _)
    · intro x y
      show (x ≠ y ∧ _) ↔ _
      rw [hmem]
      constructor
      · rintro ⟨hxy, hor⟩
        rcases hor with (hc | ⟨h1, h2⟩ | ⟨h1, h2⟩) | hc
        · exact Or.inl ⟨hxy, Or.inl hc⟩
        · exact Or.inr (Or.inl ⟨Subtype.ext h1, Subtype.ext h2⟩)
        · exact Or.inr (Or.inr ⟨Subtype.ext h1, Subtype.ext h2⟩)
        · rw [hmem] at hc
          rcases hc with hc | ⟨h1, h2⟩ | ⟨h1, h2⟩
          · exact Or.inl ⟨hxy, Or.inr hc⟩
          · exact Or.inr (Or.inr ⟨Subtype.ext h2, Subtype.ext h1⟩)
          · exact Or.inr (Or.inl ⟨Subtype.ext h2, Subtype.ext h1⟩)
      · rintro (⟨hxy, hor⟩ | ⟨h1, h2⟩ | ⟨h1, h2⟩)
        · refine ⟨hxy, ?_⟩
          rcases hor with hc | hc
          · exact Or.inl (Or.inl hc)
          · exact Or.inr ((hmem _ _).mpr (Or.inl hc))
        · subst h1; subst h2
          refine ⟨fun e => hnect (congrArg Subtype.val e), ?_⟩
          exact Or.inl (Or.inr (Or.inl ⟨rfl, rfl⟩))
        · subst h1; subst h2
          refine ⟨fun e => hnect (congrArg Subtype.val e).symm, ?_⟩
          exact Or.inl (Or.inr (Or.inr ⟨rfl, rfl⟩))
  · -- unvisitedSet equation
    ext p
    simp only [unvisitedSet, Finset.mem_erase, Finset.mem_filter, hne1,
      not_or]
    constructor
    · rintro ⟨hpG, hs, hor⟩
      push_neg at hor
      exact ⟨hor.2.1, hpG, hs, hor.1⟩
    · rintro ⟨hpc, hpG, hs, hNE⟩
      refine ⟨hpG, hs, ?_⟩
      push_neg
      refine ⟨hNE, hpc, ?_⟩
      intro hpct
      subst hpct
      rcases hctVis with hcs | hcNE
      · exact hs hcs
      · exact hNE hcNE
  · -- cell unvisited before the step
    rw [unvisitedSet, Finset.mem_filter]
    refine ⟨hcellG, ?_⟩
    rw [hcellE]
    simp [hcellNS]

/-- One `genStep` under the generator contracts: the invariant is
preserved and the unvisited set loses exactly the sampled cell. -/
theorem genStep_inv {σ : Type} {w h : Int} {start : Point} {f : RngFns σ}
    (hS : SampleOk f) (hC : ChoiceOk f)
    {s : GenState σ} (hfr : s.frontier.Nonempty)
    (inv : GenInv w h start s.cells s.frontier) :
    GenInv w h start (genStep w h start f s).cells
      (genStep w h start f s).frontier ∧
    unvisitedSet w h start (genStep w h start f s).cells
      = (unvisitedSet w h start s.cells).erase
          ((f.sampleF s.rs s.frontier).1) ∧
    (f.sampleF s.rs s.frontier).1 ∈ unvisitedSet w h start s.cells := by
  have hcellF : (f.sampleF s.rs s.frontier).1 ∈ s.frontier :=
    hS s.rs s.frontier hfr
  obtain ⟨q, hqadj, hqvis⟩ :=
    inv.frontierAdj (f.sampleF s.rs s.frontier).1 hcellF
  have hconn_ne :
      (adjacentPoints w h (f.sampleF s.rs s.frontier).1).filter
        (fun p => decide (p = start ∨ (s.cells p).Nonempty)) ≠ [] := by
    intro hnil
    have hq : q ∈ ([] : List Point) :=
      hnil ▸ List.mem_filter.mpr ⟨hqadj, decide_eq_true hqvis⟩
    simp at hq
  have hct := hC ((f.sampleF s.rs s.frontier).2) _ hconn_ne
  rw [List.mem_filter] at hct
  exact step_preserves inv hcellF hct.1 (of_decide_eq_true hct.2)

/-- Running the loop with fuel at least the number of unvisited cells
preserves the invariant and empties the frontier. -/
theorem createMazeLoop_spec {σ : Type} {w h : Int} {start : Point}
    {f : RngFns σ} (hS : SampleOk f) (hC : ChoiceOk f) :
    ∀ (fuel : Nat) (s : GenState σ),
      GenInv w h start s.cells s.frontier →
      (unvisitedSet w h start s.cells).card ≤ fuel →
      GenInv w h start (createMazeLoop w h start f fuel s).cells
        (createMazeLoop w h start f fuel s).frontier ∧
      (createMazeLoop w h start f fuel s).frontier = ∅ := by
  intro fuel
  induction fuel with
  | zero =>
    intro s inv hcard
    have hempty : s.frontier = ∅ := by
      rcases Finset.eq_empty_or_nonempty s.frontier with he | ⟨p, hp⟩
      · exact he
      · exfalso
        have hpu : p ∈ unvisitedSet w h start s.cells := by
          rw [unvisitedSet, Finset.mem_filter]
          refine ⟨inv.frontierSub hp, ?_⟩
          rw [inv.frontierUnvisited p hp]
          have hps : ¬ p = start := fun e => inv.startNotFrontier (by rwa [e] at hp)
          simp [hps]
        have := Finset.card_pos.mpr ⟨p, hpu⟩
        omega
    exact ⟨inv, hempty⟩
  | succ fuel ih =>
    intro s inv hcard
    rw [createMazeLoop]
    by_cases hfr : s.frontier.Nonempty
    · rw [if_pos hfr]
      obtain ⟨inv', hunv, hcell⟩ := genStep_inv hS hC hfr inv
      apply ih _ inv'
      rw [hunv, Finset.card_erase_of_mem hcell]
      have hpos := Finset.card_pos.mpr ⟨_, hcell⟩
      omega
    · rw [if_neg hfr]
      exact ⟨inv, Finset.not_nonempty_iff_eq_empty.mp hfr⟩

/-- A property holding at some grid cell and closed under grid adjacency
holds at every grid cell (the w×h grid graph is connected). -/
theorem grid_closure (w h : Int) (start : Point) (hstart : start ∈ grid w h)
    (P : Point → Prop) (hP : P start)
    (hcl : ∀ p ∈ grid w h, ∀ q ∈ grid w h, isAdjacent p q → P q → P p) :
    ∀ p ∈ grid w h, P p := by
  obtain ⟨hsx0, hsxw, hsy0, hsyh⟩ := mem_grid.mp hstart
  -- walk vertically within the start column
  have hcol : ∀ y : Int, 0 ≤ y → y < h → P ⟨start.x, y⟩ := by
    have hup : ∀ n : Nat, start.y + n < h → P ⟨start.x, start.y + n⟩ := by
      intro n
      induction n with
      | zero =>
        intro _
        simpa using hP
      | succ k ihk =>
        intro hk
        have hk' : start.y + k < h := by push_cast at hk ⊢; omega
        have hmem1 : (⟨start.x, start.y + (k + 1 : Nat)⟩ : Point) ∈ grid w h := by
          simp only [mem_grid]; push_cast; refine ⟨hsx0, hsxw, by omega, by push_cast at hk; omega⟩
        have hmem2 : (⟨start.x, start.y + k⟩ : Point) ∈ grid w h := by
          simp only [mem_grid]; exact ⟨hsx0, hsxw, by omega, hk'⟩
        refine hcl _ hmem1 _ hmem2 ?_ (ihk hk')
        left
        show (⟨start.x, start.y + k⟩ : Point)
          = ⟨start.x, start.y + (k + 1 : Nat) - 1⟩
        push_cast
        congr 1
        omega
    have hdown : ∀ n : Nat, 0 ≤ start.y - n → P ⟨start.x, start.y - n⟩ := by
      intro n
      induction n with
      | zero =>
        intro _
        simpa using hP
      | succ k ihk =>
        intro hk
        have hk' : 0 ≤ start.y - k := by push_cast at hk ⊢; omega
        have hmem1 : (⟨start.x, start.y - (k + 1 : Nat)⟩ : Point) ∈ grid w h := by
          simp only [mem_grid]; push_cast
          refine ⟨hsx0, hsxw, by push_cast at hk; omega, by omega⟩
        have hmem2 : (⟨start.x, start.y - k⟩ : Point) ∈ grid w h := by
          simp only [mem_grid]; refine ⟨hsx0, hsxw, hk', by push_cast; omega⟩
        refine hcl _ hmem1 _ hmem2 ?_ (ihk hk')
        right; left
        show (⟨start.x, start.y - k⟩ : Point)
          = ⟨start.x, start.y - (k + 1 : Nat) + 1⟩
        push_cast
        congr 1
        omega
    intro y hy0 hyh
    rcases le_or_lt start.y y with hsy | hsy
    · have := hup (y - start.y).toNat
      rw [Int.toNat_of_nonneg (by omega)] at this
      have heq : start.y + (y - start.y) = y := by omega
      rw [heq] at this
      exact this hyh
    · have := hdown (start.y - y).toNat
      rw [Int.toNat_of_nonneg (by omega)] at this
      have heq : start.y - (start.y - y) = y := by omega
      rw [heq] at this
      exact this hy0
  -- walk horizontally from the start column
  have hrow : ∀ y : Int, 0 ≤ y → y < h → ∀ x : Int, 0 ≤ x → x < w →
      P ⟨x, y⟩ := by
    intro y hy0 hyh
    have hright : ∀ n : Nat, start.x + n < w → P ⟨start.x + n, y⟩ := by
      intro n
      induction n with
      | zero =>
        intro _
        simpa using hcol y hy0 hyh
      | succ k ihk =>
        intro hk
        have hk' : start.x + k < w := by push_cast at hk ⊢; omega
        have hmem1 : (⟨start.x + (k + 1 : Nat), y⟩ : Point) ∈ grid w h := by
          simp only [mem_grid]; push_cast
          refine ⟨by omega, by push_cast at hk; omega, hy0, hyh⟩
        have hmem2 : (⟨start.x + k, y⟩ : Point) ∈ grid w h := by
          simp only [mem_grid]; exact ⟨by omega, hk', hy0, hyh⟩
        refine hcl _ hmem1 _ hmem2 ?_ (ihk hk')
        right; right; left
        show (⟨start.x + k, y⟩ : Point) = ⟨start.x + (k + 1 : Nat) - 1, y⟩
        push_cast
        congr 1
        omega
    have hleft : ∀ n : Nat, 0 ≤ start.x - n → P ⟨start.x - n, y⟩ := by
      intro n
      induction n with
      | zero =>
        intro _
        simpa using hcol y hy0 hyh
      | succ k ihk =>
        intro hk
        have hk' : 0 ≤ start.x - k := by push_cast at hk ⊢; omega
        have hmem1 : (⟨start.x - (k + 1 : Nat), y⟩ : Point) ∈ grid w h := by
          simp only [mem_grid]; push_cast
          refine ⟨by push_cast at hk; omega, by omega, hy0, hyh⟩
        have hmem2 : (⟨start.x - k, y⟩ : Point) ∈ grid w h := by
          simp only [mem_grid]; refine ⟨hk', by push_cast; omega, hy0, hyh⟩
        refine hcl _ hmem1 _ hmem2 ?_ (ihk hk')
        right; right; right
        show (⟨start.x - k, y⟩ : Point) = ⟨start.x - (k + 1 : Nat) + 1, y⟩
        push_cast
        congr 1
        omega
    intro x hx0 hxw
    rcases le_or_lt start.x x with hsx | hsx
    · have := hright (x - start.x).toNat
      rw [Int.toNat_of_nonneg (by omega)] at this
      have heq : start.x + (x - start.x) = x := by omega
      rw [heq] at this
      exact this hxw
    · have := hleft (start.x - x).toNat
      rw [Int.toNat_of_nonneg (by omega)] at this
      have heq : start.x - (start.x - x) = x := by omega
      rw [heq] at this
      exact this hx0
  intro p hp
  obtain ⟨hx0, hxw, hy0, hyh⟩ := mem_grid.mp hp
  have := hrow p.y hy0 hyh p.x hx0 hxw
  cases p
  exact this

/-- Connection-set reachability transfers to graph reachability. -/
theorem reach_toReachable {w h : Int} {start : Point} {cells : Cells}
    (hadj : ∀ p q : Point, q ∈ cells p →
      p ∈ grid w h ∧ q ∈ grid w h ∧ isAdjacent p q)
    (hs : start ∈ grid w h) {p : Point} (hreach : Reach cells start p) :
    ∀ hp : p ∈ grid w h,
      (graphOf w h cells).Reachable ⟨start, hs⟩ ⟨p, hp⟩ := by
  induction hreach with
  | refl => exact fun hp => SimpleGraph.Reachable.refl _
  | @tail b c hab hbc ih =>
    intro hp
    have hb := (hadj b c hbc).1
    have hadj2 : (graphOf w h cells).Adj ⟨b, hb⟩ ⟨c, hp⟩ := by
      refine ⟨?_, Or.inl hbc⟩
      intro e
      exact isAdjacent_ne (hadj b c hbc).2.2 (congrArg Subtype.val e)
    exact (ih hb).trans hadj2.reachable

/-- Once the frontier is exhausted, the invariant forces every grid cell to
be part of the maze. -/
theorem inv_empty_full {w h : Int} {start : Point} {cells : Cells}
    (inv : GenInv w h start cells ∅) :
    ∀ p ∈ grid w h, p = start ∨ (cells p).Nonempty := by
  apply grid_closure w h start inv.startMem
    (fun p => p = start ∨ (cells p).Nonempty) (Or.inl rfl)
  intro p hp q hq hadj hPq
  by_cases hPp : p = start ∨ (cells p).Nonempty
  · exact hPp
  · exfalso
    push_neg at hPp
    have hpe : cells p = ∅ := Finset.not_nonempty_iff_eq_empty.mp hPp.2
    have hmem := inv.frontierComplete p hp hpe hPp.1 q
      ((mem_adjacentPoints hp).mpr ⟨hadj, hq⟩) hPq
    exact absurd hmem (Finset.not_mem_empty p)

/-- A maze returned by `mkMaze` (with valid dimensions, under the generator
contracts) satisfies the generation invariant with an exhausted frontier,
and every grid cell is part of the maze. -/
theorem mkMaze_invariant {σ : Type} {w h : Int} {f : RngFns σ} {s0 : σ}
    (hw : 1 ≤ w) (hh : 1 ≤ h) (hR : RandrangeOk f) (hS : SampleOk f)
    (hC : ChoiceOk f) {m : Maze} (hm : mkMaze w h f s0 = some m) :
    m.width = w ∧ m.height = h ∧
    GenInv w h m.start m.cells ∅ ∧
    (∀ p ∈ grid w h, p = m.start ∨ (m.cells p).Nonempty) := by
  have hneg : ¬ h ≤ 0 := by omega
  unfold mkMaze at hm
  rw [if_neg hneg] at hm
  injection hm with heq
  subst heq
  have hsy := hR s0 h (by omega)
  have hstartMem : Point.mk 0 (f.randrangeF s0 0 h).1 ∈ grid w h := by
    simp only [mem_grid]
    exact ⟨le_rfl, by omega, hsy.1, hsy.2⟩
  have inv0 : GenInv w h (Point.mk 0 (f.randrangeF s0 0 h).1)
      (fun _ => (∅ : Finset Point))
      ((adjacentPoints w h (Point.mk 0 (f.randrangeF s0 0 h).1)).toFinset) := by
    refine ⟨hstartMem, ?_, fun p _ => rfl, ?_, ?_, ?_, ?_, ?_, ?_, ?_, ?_⟩
    · intro p hp
      exact ((mem_adjacentPoints hstartMem).mp (List.mem_toFinset.mp hp)).2
    · intro hp
      exact not_isAdjacent_self _
        ((mem_adjacentPoints hstartMem).mp (List.mem_toFinset.mp hp)).1
    · exact fun p q hq => absurd hq (Finset.not_mem_empty q)
    · exact fun p q hq => absurd hq (Finset.not_mem_empty q)
    · intro p _ hvis
      rcases hvis with hps | hNE
      · exact hps ▸ Relation.ReflTransGen.refl
      · exact absurd hNE Finset.not_nonempty_empty
    · exact Or.inl fun _ => rfl
    · intro p hp
      exact ⟨_, adjacentPoints_comm hstartMem (List.mem_toFinset.mp hp),
        Or.inl rfl⟩
    · intro p hpG _ _ q hqAdj hqvis
      rcases hqvis with hqs | hNE
      · subst hqs
        exact List.mem_toFinset.mpr (adjacentPoints_comm hpG hqAdj)
      · exact absurd hNE Finset.not_nonempty_empty
    · have hbot : graphOf w h (fun _ => (∅ : Finset Point)) = ⊥ := by
        ext a b
        simp [graphOf]
      rw [hbot]
      exact SimpleGraph.isAcyclic_bot
  have hcard : (unvisitedSet w h (Point.mk 0 (f.randrangeF s0 0 h).1)
      (fun _ => (∅ : Finset Point))).card ≤ (w.toNat + 1) * (h.toNat + 1) := by
    calc (unvisitedSet w h _ _).card
        ≤ (grid w h).card := Finset.card_le_card (Finset.filter_subset _ _)
      _ = w.toNat * h.toNat := grid_card w h
      _ ≤ (w.toNat + 1) * (h.toNat + 1) :=
          Nat.mul_le_mul (Nat.le_succ _) (Nat.le_succ _)
  obtain ⟨invF, hfrF⟩ := createMazeLoop_spec hS hC
    ((w.toNat + 1) * (h.toNat + 1)) ⟨fun _ => ∅, _, _⟩ inv0 hcard
  rw [hfrF] at invF
  exact ⟨rfl, rfl, invF, inv_empty_full invF⟩

/-- A loop started with an empty frontier does nothing. -/
theorem createMazeLoop_empty {σ : Type} (w h : Int) (start : Point)
    (f : RngFns σ) (fuel : Nat) (s : GenState σ) (hfr : s.frontier = ∅) :
    createMazeLoop w h start f fuel s = s := by
  cases fuel with
  | zero => rfl
  | succ fuel =>
    rw [createMazeLoop, if_neg]
    rw [hfr]
    exact Finset.not_nonempty_empty

/-- In a maze with no connections at all, every move fails (and still
reorients the runner). -/
theorem move_in_empty {m : Maze} (hc : ∀ p, m.cells p = ∅)
    (r : RunnerState) (d : Direction) :
    r.move m d = (false, { r with _heading := r.to_absolue d }) := by
  unfold RunnerState.move
  rw [if_neg]
  rintro ⟨-, hcm⟩
  rw [Maze.can_move] at hcm
  have hmem := of_decide_eq_true hcm
  rw [hc] at hmem
  exact absurd hmem (Finset.not_mem_empty _)

/-!
## Claim theorems
-/

/-- C5: for every non-NONE heading `h` and non-NONE relative direction `r`,
`h.relative (h.absolute r) = r` — the two conversions are exact inverses. -/
theorem absolute_relative_inverse (h : AbsoluteDirection)
    (r : RelativeDirection) (hh : h ≠ AbsoluteDirection.NONE)
    (hr : r ≠ RelativeDirection.NONE) :
    h.relative (h.absolute r) = r := by
  cases h <;> cases r <;> first
    | exact absurd rfl hh
    | exact absurd rfl hr
    | decide

/-- C5 witness: the inverse law at `h = UP`, `r = LEFT`. -/
theorem absolute_relative_inverse_witness :
    (AbsoluteDirection.UP ≠ AbsoluteDirection.NONE ∧
      RelativeDirection.LEFT ≠ RelativeDirection.NONE) ∧
    AbsoluteDirection.UP.relative
      (AbsoluteDirection.UP.absolute RelativeDirection.LEFT)
      = RelativeDirection.LEFT :=
  ⟨by decide,
   absolute_relative_inverse AbsoluteDirection.UP RelativeDirection.LEFT
     (by decide) (by decide)⟩

/-- C6 (code bug evidence): `relative` is not NONE-absorbing in its
argument.  Since maze.py line 54 compares the `AbsoluteDirection` argument
against `RelativeDirection.NONE` (a member of a different enum, so the
comparison is always false in Python), `UP.relative(NONE)` falls through to
the delta computation and yields `LEFT` instead of the documented `NONE`. -/
theorem relative_none_eval :
    AbsoluteDirection.UP.relative AbsoluteDirection.NONE
      = RelativeDirection.LEFT := by decide

/-- C7: a move whose resolved absolute direction is blocked by a wall
returns `false`, leaves the position and the visited-point history
unchanged, and leaves the runner heading in the attempted direction. -/
theorem move_blocked_frame (m : Maze) (r : RunnerState) (d : Direction)
    (hnone : r.to_absolue d ≠ AbsoluteDirection.NONE)
    (hblocked : m.can_move r.position (r.to_absolue d) = false) :
    (r.move m d).1 = false ∧
    (r.move m d).2.position = r.position ∧
    (r.move m d).2.history = r.history ∧
    (r.move m d).2.heading = r.to_absolue d := by
  have : r.move m d = (false, { r with _heading := r.to_absolue d }) := by
    simp [RunnerState.move, hblocked]
  rw [this]
  exact ⟨rfl, rfl, rfl, rfl⟩

/-- C7 witness: in the 1×1 maze every side of the start cell is a wall;
moving UP fails, keeps position and history, and turns the runner UP. -/
theorem move_blocked_frame_witness :
    ((mkRootRunner maze11.start).to_absolue (Direction.abs AbsoluteDirection.UP)
        ≠ AbsoluteDirection.NONE ∧
      maze11.can_move (mkRootRunner maze11.start).position
        ((mkRootRunner maze11.start).to_absolue
          (Direction.abs AbsoluteDirection.UP)) = false) ∧
    (((mkRootRunner maze11.start).move maze11
        (Direction.abs AbsoluteDirection.UP)).1 = false ∧
      ((mkRootRunner maze11.start).move maze11
        (Direction.abs AbsoluteDirection.UP)).2.position
        = (mkRootRunner maze11.start).position ∧
      ((mkRootRunner maze11.start).move maze11
        (Direction.abs AbsoluteDirection.UP)).2.history
        = (mkRootRunner maze11.start).history ∧
      ((mkRootRunner maze11.start).move maze11
        (Direction.abs AbsoluteDirection.UP)).2.heading
        = (mkRootRunner maze11.start).to_absolue
            (Direction.abs AbsoluteDirection.UP)) :=
  ⟨by decide,
   move_blocked_frame maze11 (mkRootRunner maze11.start)
     (Direction.abs AbsoluteDirection.UP) (by decide) (by decide)⟩

/-- C10 (code bug evidence): `age()` does not satisfy the documented
relations.  For the freshly created root runner, `age()` equals
`len(history())` (both are 1) instead of strictly exceeding it, because
`age` uses `len(_history)`, which excludes the current position; for a
fresh clone (spawn index 0) `age()` is `len(history()) - 1 - spawn_index`,
one less than the claimed `len(history()) - spawn_index`. -/
theorem age_eval :
    (mkRootRunner (Point.mk 0 0)).age
        = ((mkRootRunner (Point.mk 0 0)).history.length : Int) ∧
    ((mkRootRunner (Point.mk 0 0)).duplicate
        (Direction.abs AbsoluteDirection.UP) "Clone").age
      = (((mkRootRunner (Point.mk 0 0)).duplicate
          (Direction.abs AbsoluteDirection.UP) "Clone").history.length : Int)
        - 1 - 0 := by decide

/-- C3 (code bug evidence): with the active population already equal to
`width*height` (one runner in a 1×1 maze), a clone request does not raise:
`clone_runner` tests `len(runners) > h*w` instead of `>=`, so it appends
the duplicate and the population grows to `width*height + 1`. -/
theorem clone_at_capacity_eval :
    clone_runner maze11 [mkRootRunner maze11.start]
        (mkRootRunner maze11.start)
        (Direction.rel RelativeDirection.LEFT) "Lefty"
      = some ([mkRootRunner maze11.start] ++
          [(mkRootRunner maze11.start).duplicate
            (Direction.rel RelativeDirection.LEFT) "Lefty"]) := by decide

/-- C2: maze construction is deterministic — two constructions with the
same dimensions and the same generator (same functions and same seed
state) produce identical per-cell connection sets and identical start and
end points. -/
theorem mkMaze_deterministic {σ : Type} (w1 h1 w2 h2 : Int)
    (f1 f2 : RngFns σ) (s1 s2 : σ)
    (hw : w1 = w2) (hh : h1 = h2) (hf : f1 = f2) (hs : s1 = s2)
    (m1 m2 : Maze)
    (hm1 : mkMaze w1 h1 f1 s1 = some m1)
    (hm2 : mkMaze w2 h2 f2 s2 = some m2) :
    (∀ p, m1.cells p = m2.cells p) ∧ m1.start = m2.start ∧
      m1.endP = m2.endP := by
  subst hw hh hf hs
  rw [hm1] at hm2
  cases Option.some.injEq .. ▸ hm2
  exact ⟨fun _ => rfl, rfl, rfl⟩

/-- C2 witness: two 1×1 constructions from `detRng` at seed state 0 agree. -/
theorem mkMaze_deterministic_witness :
    ((1 : Int) = 1 ∧ mkMaze 1 1 detRng 0 = some maze11) ∧
    ((∀ p, maze11.cells p = maze11.cells p) ∧
      maze11.start = maze11.start ∧ maze11.endP = maze11.endP) :=
  ⟨⟨rfl, (Option.some_get _).symm⟩,
   mkMaze_deterministic 1 1 1 1 detRng detRng 0 0 rfl rfl rfl rfl
     maze11 maze11 (Option.some_get _).symm (Option.some_get _).symm⟩

/-- C8 counterexample: the claim "construction fails for every
width ≤ 0" is false — `Maze(0, 1)` succeeds, because `__init__` never
validates the width; only `randrange(0, height)` can raise. -/
theorem mkMaze_width_zero_succeeds :
    (mkMaze 0 1 detRng 0).isSome = true := by decide

/-- C8 amended: construction fails (with the `ValueError` of
`randrange(0, height)` on an empty range, before any cell is connected)
exactly when `height ≤ 0`; it succeeds for every height ≥ 1 — including
every width ≥ 1, but also for non-positive widths, which are not
validated. -/
theorem mkMaze_isSome_iff {σ : Type} (w h : Int) (f : RngFns σ) (s0 : σ) :
    (mkMaze w h f s0).isSome = true ↔ 1 ≤ h := by
  unfold mkMaze
  split
  next hle => simp; omega
  next hle => simp; omega

/-- C4 counterexample: in the 1×1 maze generated by `detRng` (where start
equals end), the simulation does not declare victory on tick 0 — the win
check runs only after a successful move, every move from the single cell
fails, and the run ends as a crash after 1 tick. -/
theorem sim_1x1_no_victory_eval :
    runSim maze11 (fun _ => Direction.abs AbsoluteDirection.RIGHT) 3
        = SimResult.crashed 1 ∧
      runSim maze11 (fun _ => Direction.abs AbsoluteDirection.RIGHT) 3
        ≠ SimResult.won 0 := by decide

/-- C1: for every width ≥ 1 and height ≥ 1 and every generator satisfying
the `random.Random` contracts, the generated connection graph is a spanning
tree of the grid: it has exactly `width*height - 1` undirected edges
(stated additively to avoid truncated subtraction), every grid cell is
reachable from the start cell along connections, and the graph is
acyclic. -/
theorem maze_spanning_tree {σ : Type} (w h : Int) (f : RngFns σ) (s0 : σ)
    (hw : 1 ≤ w) (hh : 1 ≤ h) (hR : RandrangeOk f) (hS : SampleOk f)
    (hC : ChoiceOk f) (m : Maze) (hm : mkMaze w h f s0 = some m)
    (p : Point) (hp : p ∈ grid w h) :
    (mazeGraph m).edgeFinset.card + 1 = w.toNat * h.toNat ∧
    Reach m.cells m.start p ∧
    (mazeGraph m).IsAcyclic := by
  obtain ⟨hwidth, hheight, inv, hfull⟩ := mkMaze_invariant hw hh hR hS hC hm
  subst hwidth
  subst hheight
  have htree : (mazeGraph m).IsTree := by
    constructor
    · rw [SimpleGraph.connected_iff]
      refine ⟨?_, ⟨⟨m.start, inv.startMem⟩⟩⟩
      intro x y
      have hx := reach_toReachable inv.edgesAdj inv.startMem
        (inv.reach x.1 x.2 (hfull x.1 x.2)) x.2
      have hy := reach_toReachable inv.edgesAdj inv.startMem
        (inv.reach y.1 y.2 (hfull y.1 y.2)) y.2
      exact hx.symm.trans hy
    · exact inv.acyclic
  refine ⟨?_, inv.reach p hp (hfull p hp), htree.IsAcyclic⟩
  calc (mazeGraph m).edgeFinset.card + 1
      = Fintype.card {q : Point // q ∈ grid m.width m.height} :=
        htree.card_edgeFinset
    _ = (grid m.width m.height).card := Fintype.card_coe _
    _ = m.width.toNat * m.height.toNat := grid_card _ _

/-- C1 witness: the 2×2 maze generated by `detRng` is a spanning tree with
3 edges, cell (1,1) reachable from the start. -/
theorem maze_spanning_tree_witness :
    ((1 : Int) ≤ 2 ∧ mkMaze 2 2 detRng 0 = some maze22 ∧
      Point.mk 1 1 ∈ grid 2 2) ∧
    ((mazeGraph maze22).edgeFinset.card + 1 = (2 : Int).toNat * (2 : Int).toNat ∧
      Reach maze22.cells maze22.start (Point.mk 1 1) ∧
      (mazeGraph maze22).IsAcyclic) :=
  ⟨⟨by decide, (Option.some_get _).symm, by decide⟩,
   maze_spanning_tree 2 2 detRng 0 (by decide) (by decide)
     detRng_randrangeOk detRng_sampleOk detRng_choiceOk maze22
     (Option.some_get _).symm (Point.mk 1 1) (by decide)⟩

/-- C9: in a generated maze, `can_move` returns true exactly when the
neighbor in the given direction is in the position's connection set, and it
returns false — without faulting, the cell lookup auto-creates an empty
cell — when the direction is NONE or the neighbor lies off the grid. -/
theorem can_move_spec {σ : Type} (w h : Int) (f : RngFns σ) (s0 : σ)
    (hw : 1 ≤ w) (hh : 1 ≤ h) (hR : RandrangeOk f) (hS : SampleOk f)
    (hC : ChoiceOk f) (m : Maze) (hm : mkMaze w h f s0 = some m)
    (pos : Point) (dir : AbsoluteDirection) :
    (m.can_move pos dir = true ↔ Maze.move pos dir ∈ m.cells pos) ∧
    (dir = AbsoluteDirection.NONE → m.can_move pos dir = false) ∧
    (Maze.move pos dir ∉ grid w h → m.can_move pos dir = false) := by
  obtain ⟨hwidth, hheight, inv, hfull⟩ := mkMaze_invariant hw hh hR hS hC hm
  refine ⟨by simp [Maze.can_move], ?_, ?_⟩
  · intro hdir
    subst hdir
    apply decide_eq_false
    intro hmem
    exact not_isAdjacent_self pos (inv.edgesAdj pos pos hmem).2.2
  · intro hoff
    apply decide_eq_false
    intro hmem
    subst hwidth
    subst hheight
    exact hoff (inv.edgesAdj pos _ hmem).2.1

/-- C9 witness: in the 1×1 maze, `can_move` from the start with direction
NONE reports false rather than faulting, and agrees with set membership. -/
theorem can_move_spec_witness :
    ((1 : Int) ≤ 1 ∧ mkMaze 1 1 detRng 0 = some maze11) ∧
    ((maze11.can_move (Point.mk 0 0) AbsoluteDirection.NONE = true ↔
        Maze.move (Point.mk 0 0) AbsoluteDirection.NONE
          ∈ maze11.cells (Point.mk 0 0)) ∧
      (AbsoluteDirection.NONE = AbsoluteDirection.NONE →
        maze11.can_move (Point.mk 0 0) AbsoluteDirection.NONE = false) ∧
      (Maze.move (Point.mk 0 0) AbsoluteDirection.NONE ∉ grid 1 1 →
        maze11.can_move (Point.mk 0 0) AbsoluteDirection.NONE = false)) :=
  ⟨⟨by decide, (Option.some_get _).symm⟩,
   can_move_spec 1 1 detRng 0 (by decide) (by decide) detRng_randrangeOk
     detRng_sampleOk detRng_choiceOk maze11 (Option.some_get _).symm
     (Point.mk 0 0) AbsoluteDirection.NONE⟩

/-- C4 amended: in every 1×1 maze the start point equals the end point, but
the simulation never declares victory: whatever direction the decision
function returns, the sole runner's move fails on the first tick (the win
check runs only after a successful move), and the run ends reporting a
crash after 1 tick. -/
theorem sim_1x1_amended {σ : Type} (f : RngFns σ) (s0 : σ)
    (hR : RandrangeOk f) (m : Maze) (hm : mkMaze 1 1 f s0 = some m)
    (alg : RunnerState → Direction) :
    m.start = m.endP ∧ runSim m alg 2 = SimResult.crashed 1 := by
  have hneg : ¬ (1 : Int) ≤ 0 := by omega
  unfold mkMaze at hm
  rw [if_neg hneg] at hm
  dsimp only at hm
  have hsy := hR s0 1 (by omega)
  have hey := hR (f.randrangeF s0 0 1).2 1 (by omega)
  have hsy0 : (f.randrangeF s0 0 1).1 = 0 := by omega
  have hey0 : (f.randrangeF (f.randrangeF s0 0 1).2 0 1).1 = 0 := by omega
  rw [hsy0, hey0] at hm
  have hadj0 : adjacentPoints 1 1 (Point.mk 0 0) = [] := rfl
  rw [hadj0] at hm
  rw [List.toFinset_nil] at hm
  rw [createMazeLoop_empty 1 1 _ f _ _ rfl] at hm
  injection hm with heq
  subst heq
  constructor
  · show Point.mk 0 0 = Point.mk (1 - 1) 0
    norm_num [Point.mk.injEq]
  · have hcells : ∀ p : Point,
        Maze.cells
          { width := 1, height := 1, start := Point.mk 0 0,
            endP := Point.mk 0 0, cells := fun _ => ∅ } p = ∅ :=
      fun _ => rfl
    have hmove := move_in_empty hcells
    simp [runSim, simLoop, tickLoop, hmove]

/-- C4 amended witness: the concrete 1×1 maze with the decision function
constantly answering UP. -/
theorem sim_1x1_amended_witness :
    (RandrangeOk detRng ∧ mkMaze 1 1 detRng 0 = some maze11) ∧
    (maze11.start = maze11.endP ∧
      runSim maze11 (fun _ => Direction.abs AbsoluteDirection.UP) 2
        = SimResult.crashed 1) :=
  ⟨⟨detRng_randrangeOk, (Option.some_get _).symm⟩,
   sim_1x1_amended detRng 0 detRng_randrangeOk maze11
     (Option.some_get _).symm (fun _ => Direction.abs AbsoluteDirection.UP)⟩

end MazeRepo
